import Mathlib

/-!
Verification of the termtree rendering library (src/vendor/termtree/src/lib.rs).

The library renders a tree of labelled nodes as a text diagram with
box-drawing connectors.  The content type parameter `D : Display` is
instantiated with `String` (so `to_string` is the identity).  Rust's
`Formatter` is modelled by the list of formatting-macro invocations the
`Display::fmt` implementation performs, in order: each `write!` becomes a
`W.part` element and each `writeln!` a `W.line` element; concatenating
their text yields the formatter's output.
-/

namespace Termtree

/-- The `GlyphPalette` struct: six glyph strings (fields in source order,
defaults in `GlyphPalette.new`). -/
structure GlyphPalette where
  middle_item : String
  last_item : String
  item_indent : String
  middle_skip : String
  last_skip : String
  skip_indent : String
deriving Repr, DecidableEq

/-- `GlyphPalette::new`: the default glyphs. -/
def GlyphPalette.new : GlyphPalette :=
  GlyphPalette.mk "├" "└" "── " "|" " " "   "

/-- The `Tree<D>` struct with `D = String`: content, ordered children,
multiline flag and this node's glyph palette. -/
inductive Tree where
  | mk (root : String) (leaves : List Tree) (multiline : Bool) (glyphs : GlyphPalette)

/-- Field accessor for `Tree.root`. -/
def Tree.root : Tree → String
  | .mk r _ _ _ => r

/-- Field accessor for `Tree.leaves`. -/
def Tree.leaves : Tree → List Tree
  | .mk _ ls _ _ => ls

/-- Field accessor for `Tree.multiline`. -/
def Tree.multiline : Tree → Bool
  | .mk _ _ m _ => m

/-- Field accessor for `Tree.glyphs`. -/
def Tree.glyphs : Tree → GlyphPalette
  | .mk _ _ _ g => g

/-- One formatter write: `W.part s` is `write!` output `s`, `W.line s` is
`writeln!` output `s` (a trailing newline is appended by `writeln!`). -/
inductive W where
  | part : String → W
  | line : String → W
deriving Repr, DecidableEq

/-- The text a single write puts on the formatter. -/
def W.out : W → String
  | .part s => s
  | .line s => s ++ "\n"

/-- Whether a write is a `writeln!` (emits a line of its own). -/
def W.isLine : W → Bool
  | .part _ => false
  | .line _ => true

/-- Concatenated output of a sequence of writes. -/
def joinOut : List W → String
  | [] => ""
  | w :: ws => w.out ++ joinOut ws

/-- Split a character list at every newline, keeping every piece
(the `List Char` analogue of splitting on the separator, as
`str::split('\n')` would). -/
def splitNl : List Char → List (List Char)
  | [] => [[]]
  | c :: cs =>
    match splitNl cs with
    | [] => []
    | p :: ps => if c = '\n' then [] :: p :: ps else (c :: p) :: ps

/-- Strip one trailing carriage return, as the `str::lines` iterator does to
each piece that ended in a newline. -/
def stripCR : List Char → List Char
  | [] => []
  | [c] => if c = '\r' then [] else [c]
  | c :: cs => c :: stripCR cs

/-- Rust's `str::lines()`: pieces split at `'\n'`, each newline-terminated
piece loses one trailing `'\r'`, and a final empty piece (from a trailing
newline, or from empty input) yields no line. -/
def rustLines (s : String) : List String :=
  let parts := splitNl s.data
  parts.dropLast.map (fun l => String.mk (stripCR l)) ++
    (match parts.getLastD [] with
     | [] => []
     | l => [String.mk l])

/-- One ancestor-column write: `write!(f, "{}{}", self.glyphs.last_skip,
self.glyphs.skip_indent)` when the recorded flag is true (that ancestor was
a last child), the `middle_skip` form otherwise.  `g` is the palette of the
node whose `Display::fmt` runs, i.e. the render root's. -/
def skipCol (g : GlyphPalette) (s : Bool) : W :=
  if s then W.part (g.last_skip ++ g.skip_indent) else W.part (g.middle_skip ++ g.skip_indent)

/-- The `for line in root.lines()` loop of the multiline branch: each line is
preceded by the ancestor columns (root palette `g`); the first line carries
`pfx` (connector, item_indent), later lines carry `cont` (continuation,
skip_indent) because the loop overwrites `prefix` with `rest_prefix`. -/
def multiLines (g : GlyphPalette) (spaces : List Bool) (pfx cont : String × String) :
    List String → List W
  | [] => []
  | l :: rest =>
    spaces.map (skipCol g) ++ W.line (pfx.1 ++ pfx.2 ++ l) :: multiLines g spaces cont cont rest

/-- The writes the loop body performs for one popped `(last, leaf, spaces)`
entry: ancestor columns from the render root's palette `g`, connector pair
from the leaf's own palette; multiline content goes line by line through
`leaf.root.to_string().lines()`, otherwise the content is written literally
after the connector pair. -/
def nodeWrites (g : GlyphPalette) (last : Bool) (leaf : Tree) (spaces : List Bool) : List W :=
  if leaf.multiline then
    multiLines g spaces
      (if last then leaf.glyphs.last_item else leaf.glyphs.middle_item, leaf.glyphs.item_indent)
      (if last then leaf.glyphs.last_skip else leaf.glyphs.middle_skip, leaf.glyphs.skip_indent)
      (rustLines leaf.root)
  else
    spaces.map (skipCol g) ++
      [W.line ((if last then leaf.glyphs.last_item else leaf.glyphs.middle_item)
        ++ leaf.glyphs.item_indent ++ leaf.root)]

/-- The `DisplauQueue` type (its name kept from the source): entries are
`(last, leaf, spaces)`; `pop_front` takes the head, `push_front` conses. -/
abbrev DisplauQueue := List (Bool × Tree × List Bool)

/-- `enqueue_leaves`: iterate the parent's children reversed and enumerated,
pushing `(i == 0, leaf, spaces)` to the queue's front — so the first child
ends up at the front and only the last child carries `last = true`. -/
def enqueue_leaves (queue : DisplauQueue) (parent : Tree) (spaces : List Bool) : DisplauQueue :=
  (parent.leaves.reverse.enum).foldl (fun q p => (p.1 == 0, p.2, spaces) :: q) queue

/-- What `enqueue_leaves` builds, written directly: the children in original
order, tagged with `last = true` exactly on the final child, prepended to the
queue (proved equal to `enqueue_leaves` below). -/
def taggedChildren (spaces : List Bool) : List Tree → DisplauQueue
  | [] => []
  | t :: ts => (ts.isEmpty, t, spaces) :: taggedChildren spaces ts

mutual

/-- Number of nodes of a tree. -/
def Tree.size : Tree → Nat
  | .mk _ ls _ _ => 1 + sizeL ls

/-- Total number of nodes of a list of trees. -/
def sizeL : List Tree → Nat
  | [] => 0
  | t :: ts => t.size + sizeL ts

end

/-- Total node count of the trees held in a queue; this is exactly the number
of iterations the `while let` loop still performs. -/
def queueSize : DisplauQueue → Nat
  | [] => 0
  | (_, t, _) :: rest => t.size + queueSize rest

/-- The `while let Some((last, leaf, spaces)) = queue.pop_front()` loop of
`Display::fmt`, with an explicit fuel bound (any fuel at least `queueSize`
gives the loop's behaviour; `fmtLoop` below supplies it).  Each iteration
emits the popped node's writes and, when the node has children, enqueues
them with the spaces vector extended by the node's own `last` flag. -/
def fmtLoopFuel (g : GlyphPalette) : Nat → DisplauQueue → List W
  | _, [] => []
  | 0, _ :: _ => []
  | fuel + 1, (last, leaf, spaces) :: rest =>
    nodeWrites g last leaf spaces ++
      fmtLoopFuel g fuel
        (if leaf.leaves.isEmpty then rest else enqueue_leaves rest leaf (spaces ++ [last]))

/-- The display loop with sufficient fuel. -/
def fmtLoop (g : GlyphPalette) (q : DisplauQueue) : List W :=
  fmtLoopFuel g (queueSize q) q

/-- `Display::fmt` for `Tree`: `writeln!` the root's content, then run the
queue loop starting from the root's children with empty spaces; `g` is
`self.glyphs`, the render root's palette, used for every ancestor column. -/
def fmtWrites (t : Tree) : List W :=
  W.line t.root :: fmtLoop t.glyphs (enqueue_leaves [] t [])

/-- The rendered text: the formatter output `format!("{}", tree)` yields. -/
def render (t : Tree) : String :=
  joinOut (fmtWrites t)

/-- Number of lines the renderer emits, i.e. of `writeln!` invocations. -/
def lineCount (t : Tree) : Nat :=
  (fmtWrites t).countP (fun w => w.isLine)

/-- The two `debug_assert_eq!` checks the loop body performs for a popped
multiline node: `prefix.0.chars().count() == rest_prefix.0.chars().count()`
and likewise for the indent components, on the leaf's own palette. -/
def nodeAssert (last : Bool) (leaf : Tree) : Bool :=
  if leaf.multiline then
    ((if last then leaf.glyphs.last_item else leaf.glyphs.middle_item).length
        == (if last then leaf.glyphs.last_skip else leaf.glyphs.middle_skip).length)
      && (leaf.glyphs.item_indent.length == leaf.glyphs.skip_indent.length)
  else true

/-- The same queue loop, recording whether every `debug_assert_eq!` executed
during the render passes. -/
def assertLoopFuel : Nat → DisplauQueue → Bool
  | _, [] => true
  | 0, _ :: _ => true
  | fuel + 1, (last, leaf, spaces) :: rest =>
    nodeAssert last leaf &&
      assertLoopFuel fuel
        (if leaf.leaves.isEmpty then rest else enqueue_leaves rest leaf (spaces ++ [last]))

/-- The assertion loop with sufficient fuel. -/
def assertLoop (q : DisplauQueue) : Bool :=
  assertLoopFuel (queueSize q) q

/-- All defensive width assertions executed while rendering `t` pass. -/
def assertsOk (t : Tree) : Bool :=
  assertLoop (enqueue_leaves [] t [])

mutual

/-- Modelled from the spec: a naive recursive pre-order renderer — a node's
own line(s), then its children in original order (spec §4.1 step 2: parent
before children, children in insertion order, each subtree contiguous). -/
def renderTree1 (g : GlyphPalette) (sp : List Bool) (last : Bool) : Tree → List W
  | .mk r ls m pg =>
    nodeWrites g last (.mk r ls m pg) sp ++ renderForest g (sp ++ [last]) ls

/-- Modelled from the spec: render a list of siblings in order; the final
sibling is the `last` child. -/
def renderForest (g : GlyphPalette) (sp : List Bool) : List Tree → List W
  | [] => []
  | t :: ts => renderTree1 g sp ts.isEmpty t ++ renderForest g sp ts

end

/-- Modelled from the spec: the whole naive recursive pre-order render —
root line, then the root's children rendered recursively, ancestor columns
always drawn from the root's palette. -/
def recRender (t : Tree) : List W :=
  W.line t.root :: renderForest t.glyphs [] t.leaves

mutual

/-- The visit record of a node and its subtree in pre-order: the node with
its `last` flag, then its children's visits. -/
def treeVisits (last : Bool) : Tree → List (Bool × Tree)
  | .mk r ls m pg => (last, .mk r ls m pg) :: forestVisits ls

/-- Pre-order visit records of a list of siblings. -/
def forestVisits : List Tree → List (Bool × Tree)
  | [] => []
  | t :: ts => treeVisits ts.isEmpty t ++ forestVisits ts

end

/-- Follow a path of child indices down from a node. -/
def pathNode : Tree → List Nat → Option Tree
  | t, [] => some t
  | t, i :: p =>
    match t.leaves[i]? with
    | some c => pathNode c p
    | none => none

/-- The `last`-child flags collected along a path: one Bool per step, true
when that step took the final element of the children list. -/
def pathFlags : Tree → List Nat → Option (List Bool)
  | _, [] => some []
  | t, i :: p =>
    match t.leaves[i]? with
    | some c => (pathFlags c p).map (fun fs => decide (i + 1 = t.leaves.length) :: fs)
    | none => none

/-- Follow a nonempty path of child indices into a forest of siblings. -/
def pathNodeF (ls : List Tree) : List Nat → Option Tree
  | [] => none
  | i :: p =>
    match ls[i]? with
    | some c => pathNode c p
    | none => none

/-- The `last`-child flags along a nonempty path into a forest. -/
def pathFlagsF (ls : List Tree) : List Nat → Option (List Bool)
  | [] => none
  | i :: p =>
    match ls[i]? with
    | some c => (pathFlags c p).map (fun fs => decide (i + 1 = ls.length) :: fs)
    | none => none

/-- Feed a sequence of writes to a sink that accepts `budget` writes and then
rejects the next one: returns the text the sink holds and whether every write
succeeded.  A rejected write aborts immediately (the `?` operator), so
nothing after the failing write reaches the sink. -/
def runWrites : Nat → List W → String × Bool
  | _, [] => ("", true)
  | 0, _ :: _ => ("", false)
  | budget + 1, w :: ws =>
    let r := runWrites budget ws
    (w.out ++ r.1, r.2)

/-- Example tree: root `"foo"` with single-line leaves `"bar"`, `"baz"`. -/
def treeTwoLeaves : Tree :=
  Tree.mk "foo"
    [Tree.mk "bar" [] false GlyphPalette.new, Tree.mk "baz" [] false GlyphPalette.new]
    false GlyphPalette.new

/-- Example tree: root `"foo"` with two multiline leaves. -/
def treeMultiEx : Tree :=
  Tree.mk "foo"
    [Tree.mk "hello\nworld" [] true GlyphPalette.new,
     Tree.mk "goodbye\nworld" [] true GlyphPalette.new]
    false GlyphPalette.new

/-- Example tree: root with one multiline child whose content is empty and
which has one child of its own. -/
def treeEmptyMulti : Tree :=
  Tree.mk "foo"
    [Tree.mk "" [Tree.mk "kid" [] false GlyphPalette.new] true GlyphPalette.new]
    false GlyphPalette.new

/-- A distinctive palette for the middle node of `treePalettes`. -/
def paletteB : GlyphPalette :=
  GlyphPalette.mk "mB" "lB" "iB" "sB" "kB" "dB"

/-- A distinctive palette for the leaf node of `treePalettes`. -/
def paletteC : GlyphPalette :=
  GlyphPalette.mk "mC" "lC" "iC" "sC" "kC" "dC"

/-- Example tree: root (default palette) with a chain child (palette
`paletteB`) and grandchild (palette `paletteC`). -/
def treePalettes : Tree :=
  Tree.mk "root" [Tree.mk "mid" [Tree.mk "leaf" [] false paletteC] false paletteB]
    false GlyphPalette.new

/-- Example tree: root with one non-multiline child whose content embeds a
newline. -/
def treeEmbeddedNl : Tree :=
  Tree.mk "foo" [Tree.mk "a\nb" [] false GlyphPalette.new] false GlyphPalette.new

@[simp] theorem Tree.root_mk (r : String) (ls : List Tree) (m : Bool) (pg : GlyphPalette) :
    (Tree.mk r ls m pg).root = r := rfl

@[simp] theorem Tree.leaves_mk (r : String) (ls : List Tree) (m : Bool) (pg : GlyphPalette) :
    (Tree.mk r ls m pg).leaves = ls := rfl

@[simp] theorem Tree.multiline_mk (r : String) (ls : List Tree) (m : Bool) (pg : GlyphPalette) :
    (Tree.mk r ls m pg).multiline = m := rfl

@[simp] theorem Tree.glyphs_mk (r : String) (ls : List Tree) (m : Bool) (pg : GlyphPalette) :
    (Tree.mk r ls m pg).glyphs = pg := rfl

@[simp] theorem size_mk (r : String) (ls : List Tree) (m : Bool) (pg : GlyphPalette) :
    (Tree.mk r ls m pg).size = 1 + sizeL ls := by
  simp [Tree.size]

@[simp] theorem sizeL_nil : sizeL [] = 0 := by
  simp [sizeL]

@[simp] theorem sizeL_cons (t : Tree) (ts : List Tree) :
    sizeL (t :: ts) = t.size + sizeL ts := by
  simp [sizeL]

theorem size_eq (t : Tree) : t.size = 1 + sizeL t.leaves := by
  cases t
  simp

theorem size_pos (t : Tree) : 1 ≤ t.size := by
  rw [size_eq]
  omega

@[simp] theorem taggedChildren_nil (sp : List Bool) : taggedChildren sp [] = [] := rfl

@[simp] theorem taggedChildren_cons (sp : List Bool) (t : Tree) (ts : List Tree) :
    taggedChildren sp (t :: ts) = (ts.isEmpty, t, sp) :: taggedChildren sp ts := rfl

theorem taggedChildren_append_singleton (sp : List Bool) (ys : List Tree) (z : Tree) :
    taggedChildren sp (ys ++ [z])
      = ys.map (fun t => ((false : Bool), t, sp)) ++ [((true : Bool), z, sp)] := by
  induction ys with
  | nil => rfl
  | cons y ys ih =>
    have h : (ys ++ [z]).isEmpty = false := by cases ys <;> rfl
    simp [taggedChildren, h, ih]

theorem foldl_push_eq (sp : List Bool) (xs : List (Nat × Tree)) (q : DisplauQueue)
    (h : ∀ x ∈ xs, x.1 ≠ 0) :
    xs.foldl (fun q p => (p.1 == 0, p.2, sp) :: q) q
      = (xs.map (fun p => ((false : Bool), p.2, sp))).reverse ++ q := by
  induction xs generalizing q with
  | nil => rfl
  | cons x xs ih =>
    have hx : (x.1 == 0) = false := by
      have := h x (List.mem_cons_self _ _)
      simpa using this
    rw [List.foldl_cons, hx, ih _ (fun y hy => h y (List.mem_cons_of_mem _ hy))]
    simp

theorem enqueue_leaves_tagged (q : DisplauQueue) (sp : List Bool) :
    ∀ ls : List Tree,
      (ls.reverse.enum).foldl (fun q p => (p.1 == 0, p.2, sp) :: q) q
        = taggedChildren sp ls ++ q := by
  intro ls
  induction ls using List.reverseRecOn with
  | nil => rfl
  | append_singleton ys z _ =>
    rw [List.reverse_append, List.reverse_singleton, List.singleton_append, List.enum_cons,
      List.foldl_cons]
    have hmem : ∀ x ∈ ys.reverse.enumFrom 1, x.1 ≠ 0 := by
      intro x hx
      have := List.mem_enumFrom hx
      omega
    rw [foldl_push_eq sp _ _ hmem]
    have hmap : (ys.reverse.enumFrom 1).map (fun p => ((false : Bool), p.2, sp))
        = ys.reverse.map (fun t => ((false : Bool), t, sp)) := by
      have h2 := List.enumFrom_map_snd 1 ys.reverse
      calc (ys.reverse.enumFrom 1).map (fun p => ((false : Bool), p.2, sp))
          = ((ys.reverse.enumFrom 1).map Prod.snd).map (fun t => ((false : Bool), t, sp)) := by
            rw [List.map_map]
            rfl
        _ = ys.reverse.map (fun t => ((false : Bool), t, sp)) := by rw [h2]
    rw [hmap, taggedChildren_append_singleton, ← List.map_reverse, List.reverse_reverse]
    simp

theorem enqueue_leaves_eq (q : DisplauQueue) (parent : Tree) (sp : List Bool) :
    enqueue_leaves q parent sp = taggedChildren sp parent.leaves ++ q := by
  unfold enqueue_leaves
  exact enqueue_leaves_tagged q sp parent.leaves

@[simp] theorem queueSize_nil : queueSize [] = 0 := rfl

@[simp] theorem queueSize_cons (l : Bool) (t : Tree) (sp : List Bool) (rest : DisplauQueue) :
    queueSize ((l, t, sp) :: rest) = t.size + queueSize rest := rfl

theorem queueSize_append (a b : DisplauQueue) :
    queueSize (a ++ b) = queueSize a + queueSize b := by
  induction a with
  | nil => simp
  | cons e a ih =>
    obtain ⟨l, t, sp⟩ := e
    simp [ih]
    omega

theorem queueSize_tagged (sp : List Bool) (ls : List Tree) :
    queueSize (taggedChildren sp ls) = sizeL ls := by
  induction ls with
  | nil => simp
  | cons t ts ih => simp [ih]

theorem queueSize_step (rest : DisplauQueue) (t : Tree) (sp : List Bool) :
    queueSize (if t.leaves.isEmpty then rest else enqueue_leaves rest t sp)
      = sizeL t.leaves + queueSize rest := by
  by_cases h : t.leaves.isEmpty
  · have hl : t.leaves = [] := by simpa [List.isEmpty_iff] using h
    simp [h, hl]
  · simp [h, enqueue_leaves_eq, queueSize_append, queueSize_tagged]

theorem fmtLoopFuel_nil (g : GlyphPalette) (f : Nat) : fmtLoopFuel g f [] = [] := by
  cases f <;> rfl

theorem fmtLoopFuel_mono (g : GlyphPalette) (f1 : Nat) :
    ∀ (f2 : Nat) (q : DisplauQueue), queueSize q ≤ f1 → queueSize q ≤ f2 →
      fmtLoopFuel g f1 q = fmtLoopFuel g f2 q := by
  induction f1 with
  | zero =>
    intro f2 q h1 _
    cases q with
    | nil => rw [fmtLoopFuel_nil, fmtLoopFuel_nil]
    | cons e rest =>
      obtain ⟨l, t, sp⟩ := e
      have := size_pos t
      rw [queueSize_cons] at h1
      omega
  | succ f ih =>
    intro f2 q h1 h2
    cases q with
    | nil => rw [fmtLoopFuel_nil, fmtLoopFuel_nil]
    | cons e rest =>
      obtain ⟨l, t, sp⟩ := e
      have hpos := size_pos t
      have hsz := size_eq t
      rw [queueSize_cons] at h1 h2
      cases f2 with
      | zero => omega
      | succ f2 =>
        show nodeWrites g l t sp ++ fmtLoopFuel g f _ = nodeWrites g l t sp ++ fmtLoopFuel g f2 _
        congr 1
        apply ih
        · rw [queueSize_step]
          omega
        · rw [queueSize_step]
          omega

theorem fmtLoop_nil (g : GlyphPalette) : fmtLoop g [] = [] := rfl

theorem fmtLoop_cons (g : GlyphPalette) (l : Bool) (t : Tree) (sp : List Bool)
    (rest : DisplauQueue) :
    fmtLoop g ((l, t, sp) :: rest)
      = nodeWrites g l t sp ++ fmtLoop g (enqueue_leaves rest t (sp ++ [l])) := by
  unfold fmtLoop
  have h : queueSize ((l, t, sp) :: rest) = (sizeL t.leaves + queueSize rest) + 1 := by
    rw [queueSize_cons, size_eq t]
    omega
  rw [h]
  show nodeWrites g l t sp ++
      fmtLoopFuel g (sizeL t.leaves + queueSize rest)
        (if t.leaves.isEmpty then rest else enqueue_leaves rest t (sp ++ [l])) = _
  congr 1
  by_cases he : t.leaves.isEmpty
  · have hl : t.leaves = [] := by simpa [List.isEmpty_iff] using he
    rw [if_pos he, enqueue_leaves_eq, hl, taggedChildren_nil, List.nil_append]
    simp
  · rw [if_neg he]
    apply fmtLoopFuel_mono
    · rw [enqueue_leaves_eq, queueSize_append, queueSize_tagged]
    · exact le_refl _

theorem renderForest_nil (g : GlyphPalette) (sp : List Bool) : renderForest g sp [] = [] := by
  simp [renderForest]

theorem renderForest_cons (g : GlyphPalette) (sp : List Bool) (t : Tree) (ts : List Tree) :
    renderForest g sp (t :: ts) = renderTree1 g sp ts.isEmpty t ++ renderForest g sp ts := by
  simp [renderForest]

theorem renderTree1_def (g : GlyphPalette) (sp : List Bool) (b : Bool) (t : Tree) :
    renderTree1 g sp b t = nodeWrites g b t sp ++ renderForest g (sp ++ [b]) t.leaves := by
  cases t
  simp [renderTree1]

theorem fmtLoop_tagged (g : GlyphPalette) (n : Nat) :
    ∀ (ls : List Tree) (sp : List Bool) (rest : DisplauQueue), sizeL ls ≤ n →
      fmtLoop g (taggedChildren sp ls ++ rest) = renderForest g sp ls ++ fmtLoop g rest := by
  induction n using Nat.strong_induction_on with
  | _ n ih =>
    intro ls sp rest hn
    cases ls with
    | nil => simp [renderForest_nil]
    | cons t ts =>
      rw [taggedChildren_cons, List.cons_append, fmtLoop_cons, enqueue_leaves_eq]
      have hsz := size_eq t
      rw [sizeL_cons] at hn
      have h1 : sizeL t.leaves < n := by omega
      have h2 : sizeL ts < n := by
        have := size_pos t
        omega
      rw [ih (sizeL t.leaves) h1 t.leaves (sp ++ [ts.isEmpty]) _ (le_refl _),
        ih (sizeL ts) h2 ts sp rest (le_refl _), renderForest_cons, renderTree1_def]
      simp

theorem fmtWrites_eq_rec (t : Tree) : fmtWrites t = recRender t := by
  unfold fmtWrites recRender
  congr 1
  rw [enqueue_leaves_eq]
  have h := fmtLoop_tagged t.glyphs (sizeL t.leaves) t.leaves [] [] (le_refl _)
  rw [h, fmtLoop_nil, List.append_nil]

theorem assertLoopFuel_nil (f : Nat) : assertLoopFuel f [] = true := by
  cases f <;> rfl

theorem assertLoopFuel_mono (f1 : Nat) :
    ∀ (f2 : Nat) (q : DisplauQueue), queueSize q ≤ f1 → queueSize q ≤ f2 →
      assertLoopFuel f1 q = assertLoopFuel f2 q := by
  induction f1 with
  | zero =>
    intro f2 q h1 _
    cases q with
    | nil => rw [assertLoopFuel_nil, assertLoopFuel_nil]
    | cons e rest =>
      obtain ⟨l, t, sp⟩ := e
      have := size_pos t
      rw [queueSize_cons] at h1
      omega
  | succ f ih =>
    intro f2 q h1 h2
    cases q with
    | nil => rw [assertLoopFuel_nil, assertLoopFuel_nil]
    | cons e rest =>
      obtain ⟨l, t, sp⟩ := e
      have hpos := size_pos t
      have hsz := size_eq t
      rw [queueSize_cons] at h1 h2
      cases f2 with
      | zero => omega
      | succ f2 =>
        show (nodeAssert l t && assertLoopFuel f _) = (nodeAssert l t && assertLoopFuel f2 _)
        congr 1
        apply ih
        · rw [queueSize_step]
          omega
        · rw [queueSize_step]
          omega

theorem assertLoop_nil : assertLoop [] = true := rfl

theorem assertLoop_cons (l : Bool) (t : Tree) (sp : List Bool) (rest : DisplauQueue) :
    assertLoop ((l, t, sp) :: rest)
      = (nodeAssert l t && assertLoop (enqueue_leaves rest t (sp ++ [l]))) := by
  unfold assertLoop
  have h : queueSize ((l, t, sp) :: rest) = (sizeL t.leaves + queueSize rest) + 1 := by
    rw [queueSize_cons, size_eq t]
    omega
  rw [h]
  show (nodeAssert l t &&
      assertLoopFuel (sizeL t.leaves + queueSize rest)
        (if t.leaves.isEmpty then rest else enqueue_leaves rest t (sp ++ [l]))) = _
  congr 1
  by_cases he : t.leaves.isEmpty
  · have hl : t.leaves = [] := by simpa [List.isEmpty_iff] using he
    rw [if_pos he, enqueue_leaves_eq, hl, taggedChildren_nil, List.nil_append]
    simp
  · rw [if_neg he]
    apply assertLoopFuel_mono
    · rw [enqueue_leaves_eq, queueSize_append, queueSize_tagged]
    · exact le_refl _

theorem forestVisits_nil : forestVisits [] = [] := by
  simp [forestVisits]

theorem forestVisits_cons (t : Tree) (ts : List Tree) :
    forestVisits (t :: ts) = treeVisits ts.isEmpty t ++ forestVisits ts := by
  simp [forestVisits]

theorem treeVisits_def (b : Bool) (t : Tree) :
    treeVisits b t = (b, t) :: forestVisits t.leaves := by
  cases t
  simp [treeVisits]

theorem assertLoop_tagged (n : Nat) :
    ∀ (ls : List Tree) (sp : List Bool) (rest : DisplauQueue), sizeL ls ≤ n →
      assertLoop (taggedChildren sp ls ++ rest)
        = (((forestVisits ls).all fun e => nodeAssert e.1 e.2) && assertLoop rest) := by
  induction n using Nat.strong_induction_on with
  | _ n ih =>
    intro ls sp rest hn
    cases ls with
    | nil => simp [forestVisits_nil]
    | cons t ts =>
      rw [taggedChildren_cons, List.cons_append, assertLoop_cons, enqueue_leaves_eq]
      have hsz := size_eq t
      rw [sizeL_cons] at hn
      have h1 : sizeL t.leaves < n := by omega
      have h2 : sizeL ts < n := by
        have := size_pos t
        omega
      rw [ih (sizeL t.leaves) h1 t.leaves (sp ++ [ts.isEmpty]) _ (le_refl _),
        ih (sizeL ts) h2 ts sp rest (le_refl _), forestVisits_cons, treeVisits_def]
      simp [List.all_append, Bool.and_assoc]

theorem assertsOk_eq (t : Tree) :
    assertsOk t = (forestVisits t.leaves).all fun e => nodeAssert e.1 e.2 := by
  unfold assertsOk
  rw [enqueue_leaves_eq]
  have h := assertLoop_tagged (sizeL t.leaves) t.leaves [] [] (le_refl _)
  rw [h, assertLoop_nil, Bool.and_true]

theorem countL_skipCols (g : GlyphPalette) (sp : List Bool) :
    (sp.map (skipCol g)).countP (fun w => w.isLine) = 0 := by
  induction sp with
  | nil => rfl
  | cons s sp ih =>
    have h : (skipCol g s).isLine = false := by cases s <;> rfl
    simp [List.countP_cons, h, ih]

theorem countL_multiLines (g : GlyphPalette) (sp : List Bool) :
    ∀ (ls : List String) (p c : String × String),
      (multiLines g sp p c ls).countP (fun w => w.isLine) = ls.length := by
  intro ls
  induction ls with
  | nil => intro p c; rfl
  | cons l rest ih =>
    intro p c
    rw [multiLines, List.countP_append, countL_skipCols, List.countP_cons, ih c c]
    simp [W.isLine]

theorem countL_nodeWrites (g : GlyphPalette) (b : Bool) (d : Tree) (sp : List Bool) :
    (nodeWrites g b d sp).countP (fun w => w.isLine)
      = if d.multiline then (rustLines d.root).length else 1 := by
  unfold nodeWrites
  by_cases hm : d.multiline = true
  · rw [if_pos hm, if_pos hm, countL_multiLines]
  · rw [if_neg hm, if_neg hm, List.countP_append, countL_skipCols, List.countP_cons]
    rfl

theorem countL_renderForest (g : GlyphPalette) (n : Nat) :
    ∀ (ls : List Tree) (sp : List Bool), sizeL ls ≤ n →
      (renderForest g sp ls).countP (fun w => w.isLine)
        = ((forestVisits ls).map
            (fun e => if e.2.multiline then (rustLines e.2.root).length else 1)).sum := by
  induction n using Nat.strong_induction_on with
  | _ n ih =>
    intro ls sp hn
    cases ls with
    | nil => simp [renderForest_nil, forestVisits_nil]
    | cons t ts =>
      rw [renderForest_cons, renderTree1_def, forestVisits_cons, treeVisits_def]
      have hsz := size_eq t
      rw [sizeL_cons] at hn
      have h1 : sizeL t.leaves < n := by omega
      have h2 : sizeL ts < n := by
        have := size_pos t
        omega
      rw [List.countP_append, List.countP_append, countL_nodeWrites,
        ih (sizeL t.leaves) h1 t.leaves (sp ++ [ts.isEmpty]) (le_refl _),
        ih (sizeL ts) h2 ts sp (le_refl _)]
      simp [List.map_append]
      omega

theorem multiLines_cons (g : GlyphPalette) (sp : List Bool) (p c : String × String)
    (l : String) (rest : List String) :
    multiLines g sp p c (l :: rest)
      = sp.map (skipCol g) ++ W.line (p.1 ++ p.2 ++ l) :: multiLines g sp c c rest := rfl

theorem multiLines_const (g : GlyphPalette) (sp : List Bool) (c : String × String) :
    ∀ ls : List String,
      multiLines g sp c c ls
        = ls.flatMap (fun l => sp.map (skipCol g) ++ [W.line (c.1 ++ c.2 ++ l)]) := by
  intro ls
  induction ls with
  | nil => rfl
  | cons l rest ih => rw [multiLines_cons, List.flatMap_cons, ih]; simp

theorem nodeWrites_single (g : GlyphPalette) (b : Bool) (d : Tree) (sp : List Bool)
    (h : d.multiline = false) :
    nodeWrites g b d sp
      = sp.map (skipCol g) ++
          [W.line ((if b then d.glyphs.last_item else d.glyphs.middle_item)
            ++ d.glyphs.item_indent ++ d.root)] := by
  unfold nodeWrites
  rw [if_neg (by simp [h])]

theorem nodeWrites_multi (g : GlyphPalette) (b : Bool) (d : Tree) (sp : List Bool)
    (h : d.multiline = true) :
    nodeWrites g b d sp
      = multiLines g sp
          (if b then d.glyphs.last_item else d.glyphs.middle_item, d.glyphs.item_indent)
          (if b then d.glyphs.last_skip else d.glyphs.middle_skip, d.glyphs.skip_indent)
          (rustLines d.root) := by
  unfold nodeWrites
  rw [if_pos h]

@[simp] theorem pathNode_nil (t : Tree) : pathNode t [] = some t := rfl

@[simp] theorem pathFlags_nil (t : Tree) : pathFlags t [] = some [] := rfl

theorem pathNode_toF (t : Tree) (i : Nat) (p : List Nat) :
    pathNode t (i :: p) = pathNodeF t.leaves (i :: p) := rfl

theorem pathFlags_toF (t : Tree) (i : Nat) (p : List Nat) :
    pathFlags t (i :: p) = pathFlagsF t.leaves (i :: p) := rfl

theorem pathFlags_length :
    ∀ (p : List Nat) (t : Tree) (fs : List Bool), pathFlags t p = some fs →
      fs.length = p.length := by
  intro p
  induction p with
  | nil =>
    intro t fs h
    simp [pathFlags] at h
    simp [← h]
  | cons i p ih =>
    intro t fs h
    cases hg : t.leaves[i]? with
    | none => simp [pathFlags, hg] at h
    | some c =>
      simp only [pathFlags, hg] at h
      obtain ⟨fs1, hfs1, hcons⟩ := Option.map_eq_some'.mp h
      rw [← hcons]
      simp [ih c fs1 hfs1]

theorem renderForest_get (g : GlyphPalette) (sp : List Bool) :
    ∀ (ls : List Tree) (i : Nat) (c : Tree), ls[i]? = some c →
      ∃ A B, renderForest g sp ls
        = A ++ renderTree1 g sp (decide (i + 1 = ls.length)) c ++ B := by
  intro ls
  induction ls with
  | nil =>
    intro i c h
    simp at h
  | cons t ts ih =>
    intro i c h
    cases i with
    | zero =>
      have hc : t = c := by simpa using h
      subst hc
      refine ⟨[], renderForest g sp ts, ?_⟩
      rw [renderForest_cons]
      have hflag : ts.isEmpty = decide (0 + 1 = (t :: ts).length) := by
        cases ts <;> simp
      rw [← hflag]
      simp
    | succ j =>
      have h' : ts[j]? = some c := by simpa using h
      obtain ⟨A, B, hAB⟩ := ih j c h'
      refine ⟨renderTree1 g sp ts.isEmpty t ++ A, B, ?_⟩
      rw [renderForest_cons, hAB]
      have hflag : decide (j + 1 = ts.length) = decide (j + 1 + 1 = (t :: ts).length) := by
        apply decide_eq_decide.mpr
        simp
      rw [← hflag]
      simp

theorem forest_decompose (g : GlyphPalette) :
    ∀ (p : List Nat) (ls : List Tree) (sp fs : List Bool) (b : Bool) (d : Tree),
      pathNodeF ls p = some d → pathFlagsF ls p = some (fs ++ [b]) →
      ∃ pre post, renderForest g sp ls = pre ++ renderTree1 g (sp ++ fs) b d ++ post := by
  intro p
  induction p with
  | nil =>
    intro ls sp fs b d hn _
    simp [pathNodeF] at hn
  | cons i p ih =>
    intro ls sp fs b d hn hf
    cases hg : ls[i]? with
    | none => simp [pathNodeF, hg] at hn
    | some c =>
      simp only [pathNodeF, hg] at hn
      simp only [pathFlagsF, hg] at hf
      obtain ⟨fs1, hfs1, heq⟩ := Option.map_eq_some'.mp hf
      cases p with
      | nil =>
        have hd : c = d := by simpa using hn
        subst hd
        have hfs1nil : fs1 = [] := by simpa using hfs1
        subst hfs1nil
        have hfsb : fs = [] ∧ decide (i + 1 = ls.length) = b := by
          cases fs with
          | nil => simpa using heq
          | cons f fs' => simp at heq
        obtain ⟨rfl, hb⟩ := hfsb
        subst hb
        obtain ⟨A, B, hAB⟩ := renderForest_get g sp ls i c hg
        exact ⟨A, B, by simpa using hAB⟩
      | cons j p' =>
        have hlen := pathFlags_length (j :: p') c fs1 hfs1
        have hne : fs1 ≠ [] := by
          intro hnil
          rw [hnil] at hlen
          simp at hlen
        obtain ⟨fs0, rfl, hfs1eq⟩ :
            ∃ fs0, fs = decide (i + 1 = ls.length) :: fs0 ∧ fs1 = fs0 ++ [b] := by
          cases fs with
          | nil =>
            exfalso
            apply hne
            have h2 : decide (i + 1 = ls.length) = b ∧ fs1 = [] := by simpa using heq
            exact h2.2
          | cons f fs0 =>
            have h2 : decide (i + 1 = ls.length) = f ∧ fs1 = fs0 ++ [b] := by simpa using heq
            exact ⟨fs0, by rw [h2.1], h2.2⟩
        subst hfs1eq
        have hn' : pathNodeF c.leaves (j :: p') = some d := by
          rw [← pathNode_toF]
          exact hn
        have hf' : pathFlagsF c.leaves (j :: p') = some (fs0 ++ [b]) := by
          rw [← pathFlags_toF]
          exact hfs1
        obtain ⟨pre1, post1, h1⟩ := ih c.leaves (sp ++ [decide (i + 1 = ls.length)]) fs0 b d hn' hf'
        obtain ⟨A, B, hAB⟩ := renderForest_get g sp ls i c hg
        refine ⟨A ++ nodeWrites g (decide (i + 1 = ls.length)) c sp ++ pre1, post1 ++ B, ?_⟩
        rw [hAB, renderTree1_def, h1]
        simp

theorem fmt_decompose (t d : Tree) (p : List Nat) (fs : List Bool) (b : Bool)
    (hn : pathNodeF t.leaves p = some d) (hf : pathFlagsF t.leaves p = some (fs ++ [b])) :
    ∃ pre post, fmtWrites t = pre ++ renderTree1 t.glyphs fs b d ++ post := by
  obtain ⟨pre, post, h⟩ := forest_decompose t.glyphs p t.leaves [] fs b d hn hf
  refine ⟨W.line t.root :: pre, post, ?_⟩
  rw [fmtWrites_eq_rec]
  unfold recRender
  rw [h]
  simp

theorem joinOut_append (a b : List W) : joinOut (a ++ b) = joinOut a ++ joinOut b := by
  induction a with
  | nil =>
    show joinOut b = "" ++ joinOut b
    cases hb : joinOut b
    rfl
  | cons w a ih =>
    show w.out ++ joinOut (a ++ b) = (w.out ++ joinOut a) ++ joinOut b
    rw [ih, String.append_assoc]

theorem runWrites_complete :
    ∀ (ws : List W) (k : Nat), ws.length ≤ k → runWrites k ws = (joinOut ws, true) := by
  intro ws
  induction ws with
  | nil => intro k _; cases k <;> rfl
  | cons w ws ih =>
    intro k hk
    cases k with
    | zero => simp at hk
    | succ k =>
      show (w.out ++ (runWrites k ws).1, (runWrites k ws).2) = _
      rw [ih k (by simpa using hk)]
      rfl

theorem runWrites_fail :
    ∀ (ws : List W) (k : Nat), k < ws.length →
      runWrites k ws = (joinOut (ws.take k), false) := by
  intro ws
  induction ws with
  | nil => intro k hk; simp at hk
  | cons w ws ih =>
    intro k hk
    cases k with
    | zero => rfl
    | succ k =>
      show (w.out ++ (runWrites k ws).1, (runWrites k ws).2) = _
      rw [ih k (by simpa using hk)]
      simp [List.take, joinOut]

theorem pathNode_ne_nil (t : Tree) (p : List Nat) (h : p ≠ []) :
    pathNode t p = pathNodeF t.leaves p := by
  cases p with
  | nil => exact absurd rfl h
  | cons i p => rfl

theorem pathFlags_ne_nil (t : Tree) (p : List Nat) (h : p ≠ []) :
    pathFlags t p = pathFlagsF t.leaves p := by
  cases p with
  | nil => exact absurd rfl h
  | cons i p => rfl

theorem path_snoc :
    ∀ (q : List Nat) (t P d : Tree) (fs : List Bool) (i : Nat),
      pathNode t q = some P → pathFlags t q = some fs → P.leaves[i]? = some d →
      pathNodeF t.leaves (q ++ [i]) = some d ∧
        pathFlagsF t.leaves (q ++ [i]) = some (fs ++ [decide (i + 1 = P.leaves.length)]) := by
  intro q
  induction q with
  | nil =>
    intro t P d fs i hP hfs hd
    have h1 : t = P := by simpa using hP
    have h2 : ([] : List Bool) = fs := by simpa using hfs
    subst h1
    rw [← h2]
    constructor
    · simp [pathNodeF, hd]
    · simp [pathFlagsF, hd, pathFlags]
  | cons j q ih =>
    intro t P d fs i hP hfs hd
    cases hg : t.leaves[j]? with
    | none => simp [pathNode, hg] at hP
    | some c =>
      simp only [pathNode, hg] at hP
      simp only [pathFlags, hg] at hfs
      obtain ⟨fs1, hfs1, hcons⟩ := Option.map_eq_some'.mp hfs
      obtain ⟨hn', hf'⟩ := ih c P d fs1 i hP hfs1 hd
      have hne : q ++ [i] ≠ [] := by simp
      constructor
      · show pathNodeF t.leaves (j :: q ++ [i]) = some d
        simp only [List.cons_append, pathNodeF, hg]
        rw [pathNode_ne_nil c _ hne]
        exact hn'
      · show pathFlagsF t.leaves (j :: q ++ [i]) = some (fs ++ [decide (i + 1 = P.leaves.length)])
        simp only [List.cons_append, pathFlagsF, hg]
        rw [pathFlags_ne_nil c _ hne, hf']
        rw [← hcons]
        rfl

theorem render_treeTwoLeaves : render treeTwoLeaves = "foo\n├── bar\n└── baz\n" := by
  unfold render
  rw [fmtWrites_eq_rec]
  simp only [recRender, treeTwoLeaves, Tree.leaves_mk, Tree.glyphs_mk, Tree.root_mk,
    renderForest_cons, renderForest_nil, renderTree1_def]
  decide

theorem render_treeMultiEx :
    render treeMultiEx = "foo\n├── hello\n|   world\n└── goodbye\n    world\n" := by
  unfold render
  rw [fmtWrites_eq_rec]
  simp only [recRender, treeMultiEx, Tree.leaves_mk, Tree.glyphs_mk, Tree.root_mk,
    renderForest_cons, renderForest_nil, renderTree1_def]
  decide

/-- Claim C1: in a tree rendered via the root's `Display` implementation,
every descendant's first emitted line consists of the ancestor-column glyphs
(`middle_skip`/`last_skip` with `skip_indent`) all taken from the root's own
palette `t.glyphs`, followed by the connector pair (`middle_item`/`last_item`
with `item_indent`) taken from the descendant's own palette `d.glyphs` —
whatever the palettes of the intervening ancestors are (they do not occur in
the statement at all). -/
theorem claim_C1_connector_own_palette_columns_root_palette
    (t d : Tree) (p : List Nat) (fs : List Bool) (b : Bool) (fl : String)
    (hn : pathNodeF t.leaves p = some d) (hf : pathFlagsF t.leaves p = some (fs ++ [b]))
    (hfl : (d.multiline = false ∧ fl = d.root) ∨
      (d.multiline = true ∧ ∃ tl, rustLines d.root = fl :: tl)) :
    ∃ pre tail post,
      fmtWrites t = pre ++
        (fs.map (skipCol t.glyphs) ++
          W.line ((if b then d.glyphs.last_item else d.glyphs.middle_item)
            ++ d.glyphs.item_indent ++ fl) :: tail) ++ post := by
  obtain ⟨pre, post, hdec⟩ := fmt_decompose t d p fs b hn hf
  rw [renderTree1_def] at hdec
  rcases hfl with ⟨hm, hfl⟩ | ⟨hm, tl, hfl⟩
  · rw [nodeWrites_single _ _ _ _ hm] at hdec
    subst hfl
    refine ⟨pre, renderForest t.glyphs (fs ++ [b]) d.leaves, post, ?_⟩
    rw [hdec]
    simp
  · rw [nodeWrites_multi _ _ _ _ hm, hfl, multiLines_cons] at hdec
    refine ⟨pre,
      multiLines t.glyphs fs
          (if b then d.glyphs.last_skip else d.glyphs.middle_skip, d.glyphs.skip_indent)
          (if b then d.glyphs.last_skip else d.glyphs.middle_skip, d.glyphs.skip_indent) tl
        ++ renderForest t.glyphs (fs ++ [b]) d.leaves,
      post, ?_⟩
    rw [hdec]
    simp

/-- Claim C1 witness: in `treePalettes` (root with the default palette, a
middle node with `paletteB`, a leaf with `paletteC`) the grandchild's line is
made of a column from the root's palette and a connector from the leaf's own
palette, `paletteB` playing no part. -/
theorem claim_C1_witness :
    ∃ pre tail post,
      fmtWrites treePalettes = pre ++
        ([true].map (skipCol treePalettes.glyphs) ++
          W.line ((if (true : Bool) then (Tree.mk "leaf" [] false paletteC).glyphs.last_item
              else (Tree.mk "leaf" [] false paletteC).glyphs.middle_item)
            ++ (Tree.mk "leaf" [] false paletteC).glyphs.item_indent ++ "leaf") :: tail)
          ++ post :=
  claim_C1_connector_own_palette_columns_root_palette treePalettes
    (Tree.mk "leaf" [] false paletteC) [0, 0] [true] true "leaf" rfl rfl
    (Or.inl ⟨rfl, rfl⟩)

/-- Claim C2 counterexample: for the tree `treeEmptyMulti` (root `"foo"`, one
multiline child with empty content which itself has one single-line child),
the claim's formula `1 + Σ (1 + (line breaks if multiline else 0))` gives
`1 + ((1 + 0) + (1 + 0)) = 3`, but the renderer emits only 2 lines: the empty
multiline content produces no line at all. -/
theorem claim_C2_counterexample :
    lineCount treeEmptyMulti ≠ 1 + ((1 + ("".data.count '\n')) + (1 + 0)) := by
  have h : lineCount treeEmptyMulti = 2 := by
    unfold lineCount
    rw [fmtWrites_eq_rec]
    simp only [recRender, treeEmptyMulti, Tree.leaves_mk, Tree.glyphs_mk, Tree.root_mk,
      renderForest_cons, renderForest_nil, renderTree1_def]
    decide
  rw [h]
  decide

/-- Claim C2 (amended): the number of emitted lines (`writeln!` calls) is 1
for the root plus, for each descendant in visit order, the number of lines
its content splits into when its multiline flag is set (so an empty content
contributes 0 and a trailing line terminator adds no extra line; for nonempty
content without a trailing newline this is 1 + the number of embedded line
breaks), else exactly 1. -/
theorem claim_C2_amended_line_count (t : Tree) :
    lineCount t
      = 1 + ((forestVisits t.leaves).map
          (fun e => if e.2.multiline then (rustLines e.2.root).length else 1)).sum := by
  unfold lineCount
  rw [fmtWrites_eq_rec]
  unfold recRender
  rw [List.countP_cons,
    countL_renderForest t.glyphs (sizeL t.leaves) t.leaves [] (le_refl _)]
  simp [W.isLine]
  omega

/-- Claim C3: a multiline node whose content splits into two or more lines
emits its first line as ancestor columns (root palette) plus its own
connector pair (`last_item`/`middle_item` with `item_indent`), and every
later line as the same ancestor columns plus the continuation pair
(`last_skip`/`middle_skip` with `skip_indent`) from its own palette; in
particular root `"foo"` with multiline leaves `"hello\nworld"` and
`"goodbye\nworld"` renders as the claim's string. -/
theorem claim_C3_multiline_continuation :
    (∀ (t d : Tree) (p : List Nat) (fs : List Bool) (b : Bool) (l1 l2 : String)
        (ls : List String),
        pathNodeF t.leaves p = some d → pathFlagsF t.leaves p = some (fs ++ [b]) →
        d.multiline = true → rustLines d.root = l1 :: l2 :: ls →
        ∃ pre post,
          fmtWrites t = pre ++
            (fs.map (skipCol t.glyphs) ++
              W.line ((if b then d.glyphs.last_item else d.glyphs.middle_item)
                  ++ d.glyphs.item_indent ++ l1) ::
                (l2 :: ls).flatMap (fun l =>
                  fs.map (skipCol t.glyphs) ++
                    [W.line ((if b then d.glyphs.last_skip else d.glyphs.middle_skip)
                      ++ d.glyphs.skip_indent ++ l)])) ++ post) ∧
      render treeMultiEx = "foo\n├── hello\n|   world\n└── goodbye\n    world\n" := by
  constructor
  · intro t d p fs b l1 l2 ls hn hf hm hlines
    obtain ⟨pre, post, hdec⟩ := fmt_decompose t d p fs b hn hf
    rw [renderTree1_def, nodeWrites_multi _ _ _ _ hm, hlines, multiLines_cons,
      multiLines_const] at hdec
    refine ⟨pre, renderForest t.glyphs (fs ++ [b]) d.leaves ++ post, ?_⟩
    rw [hdec]
    simp
  · exact render_treeMultiEx

/-- Claim C4: a non-multiline node whose content embeds a newline has only its
first text line prefixed by the ancestor columns and its connector pair; the
embedded newline passes through literally and the following physical line
appears immediately after it with no prefix at all. -/
theorem claim_C4_embedded_newline_unprefixed
    (t d : Tree) (p : List Nat) (fs : List Bool) (b : Bool) (c1 c2 : String)
    (hn : pathNodeF t.leaves p = some d) (hf : pathFlagsF t.leaves p = some (fs ++ [b]))
    (hm : d.multiline = false) (hc : d.root = c1 ++ "\n" ++ c2) :
    ∃ pre post,
      render t = pre ++
        (joinOut (fs.map (skipCol t.glyphs)) ++
          ((if b then d.glyphs.last_item else d.glyphs.middle_item)
            ++ d.glyphs.item_indent ++ c1 ++ "\n" ++ c2 ++ "\n")) ++ post := by
  obtain ⟨pre, post, hdec⟩ := fmt_decompose t d p fs b hn hf
  rw [renderTree1_def, nodeWrites_single _ _ _ _ hm, hc] at hdec
  refine ⟨joinOut pre,
    joinOut (renderForest t.glyphs (fs ++ [b]) d.leaves) ++ joinOut post, ?_⟩
  unfold render
  rw [hdec]
  simp only [joinOut_append, joinOut, W.out]
  simp [String.append_assoc]

/-- Claim C4 witness: in `treeEmbeddedNl` the child `"a\nb"` with multiline
off yields `"b"` directly after the embedded newline, unprefixed. -/
theorem claim_C4_witness :
    ∃ pre post,
      render treeEmbeddedNl = pre ++
        (joinOut (([] : List Bool).map (skipCol treeEmbeddedNl.glyphs)) ++
          ((if (true : Bool)
              then (Tree.mk "a\nb" [] false GlyphPalette.new).glyphs.last_item
              else (Tree.mk "a\nb" [] false GlyphPalette.new).glyphs.middle_item)
            ++ (Tree.mk "a\nb" [] false GlyphPalette.new).glyphs.item_indent
            ++ "a" ++ "\n" ++ "b" ++ "\n")) ++ post :=
  claim_C4_embedded_newline_unprefixed treeEmbeddedNl
    (Tree.mk "a\nb" [] false GlyphPalette.new) [0] [] true "a" "b" rfl rfl rfl (by decide)

/-- Claim C5: the queue-based traversal of `Display::fmt` is extensionally
equal to the naive recursive pre-order renderer: parent before children,
children in original insertion order, each subtree contiguous under its
parent. -/
theorem claim_C5_queue_is_preorder (t : Tree) : fmtWrites t = recRender t :=
  fmtWrites_eq_rec t

/-- Claim C6: a visited descendant is `last` exactly when it is the final
element of its parent's children list (`i + 1 = P.leaves.length`); for every
visited descendant with a first line — its content itself when multiline is
off, the first line its content splits into when multiline is on — that first
line's prefix pair is `(last_item, item_indent)` in the last case and
`(middle_item, item_indent)` otherwise, from the node's own palette; and root
`"foo"` with single-line leaves `"bar"`, `"baz"` renders as
`"foo\n├── bar\n└── baz\n"`. -/
theorem claim_C6_last_child_glyph :
    (∀ (t P d : Tree) (q : List Nat) (i : Nat) (fs : List Bool) (fl : String),
        pathNode t q = some P → pathFlags t q = some fs → P.leaves[i]? = some d →
        ((d.multiline = false ∧ fl = d.root) ∨
          (d.multiline = true ∧ ∃ tl, rustLines d.root = fl :: tl)) →
        ∃ pre tail post,
          fmtWrites t = pre ++
            (fs.map (skipCol t.glyphs) ++
              W.line ((if i + 1 = P.leaves.length then d.glyphs.last_item
                  else d.glyphs.middle_item) ++ d.glyphs.item_indent ++ fl) :: tail)
              ++ post) ∧
      render treeTwoLeaves = "foo\n├── bar\n└── baz\n" := by
  constructor
  · intro t P d q i fs fl hP hfs hd hfl
    obtain ⟨hn, hf⟩ := path_snoc q t P d fs i hP hfs hd
    obtain ⟨pre, post, hdec⟩ := fmt_decompose t d (q ++ [i]) fs _ hn hf
    rw [renderTree1_def] at hdec
    rcases hfl with ⟨hm, hfl⟩ | ⟨hm, tl, hfl⟩
    · rw [nodeWrites_single _ _ _ _ hm] at hdec
      subst hfl
      refine ⟨pre,
        renderForest t.glyphs (fs ++ [decide (i + 1 = P.leaves.length)]) d.leaves, post, ?_⟩
      rw [hdec]
      by_cases hlast : i + 1 = P.leaves.length
      · simp [hlast]
      · simp [hlast]
    · rw [nodeWrites_multi _ _ _ _ hm, hfl, multiLines_cons] at hdec
      refine ⟨pre,
        multiLines t.glyphs fs
            (if decide (i + 1 = P.leaves.length) then d.glyphs.last_skip
                else d.glyphs.middle_skip,
              d.glyphs.skip_indent)
            (if decide (i + 1 = P.leaves.length) then d.glyphs.last_skip
                else d.glyphs.middle_skip,
              d.glyphs.skip_indent) tl
          ++ renderForest t.glyphs (fs ++ [decide (i + 1 = P.leaves.length)]) d.leaves,
        post, ?_⟩
      rw [hdec]
      by_cases hlast : i + 1 = P.leaves.length
      · simp [hlast]
      · simp [hlast]
  · exact render_treeTwoLeaves

/-- Claim C7: a childless root renders as exactly its content plus one
newline — no connector, no columns; and the root's multiline flag has no
effect whatsoever on the render (the implementation never reads it). -/
theorem claim_C7_bare_root :
    (∀ (c : String) (m : Bool) (g : GlyphPalette), render (Tree.mk c [] m g) = c ++ "\n") ∧
      (∀ (c : String) (ls : List Tree) (m m' : Bool) (g : GlyphPalette),
        render (Tree.mk c ls m g) = render (Tree.mk c ls m' g)) := by
  constructor
  · intro c m g
    unfold render fmtWrites
    rw [enqueue_leaves_eq]
    simp only [Tree.leaves_mk, Tree.glyphs_mk, Tree.root_mk, taggedChildren_nil,
      List.nil_append]
    rw [fmtLoop_nil]
    simp [joinOut, W.out, String.append_empty]
  · intro c ls m m' g
    unfold render fmtWrites
    rw [enqueue_leaves_eq, enqueue_leaves_eq]
    simp

/-- Claim C8: the defensive `debug_assert_eq!` pass over a render succeeds
exactly when, for every visited node with the multiline flag set, the
character count of its connector glyph equals that of the matching
continuation glyph (`last_item` against `last_skip` when the node is last,
`middle_item` against `middle_skip` otherwise) and the character count of
`item_indent` equals that of `skip_indent`, all in the node's own palette; so
under that width precondition the assertion branch is unreachable, and a
width mismatch on a visited multiline node makes the check fail. -/
theorem claim_C8_width_assertions (t : Tree) :
    assertsOk t = true ↔
      ∀ e ∈ forestVisits t.leaves, e.2.multiline = true →
        ((if e.1 then e.2.glyphs.last_item else e.2.glyphs.middle_item).length
            = (if e.1 then e.2.glyphs.last_skip else e.2.glyphs.middle_skip).length ∧
          e.2.glyphs.item_indent.length = e.2.glyphs.skip_indent.length) := by
  rw [assertsOk_eq, List.all_eq_true]
  constructor
  · intro h e he hm
    have h2 := h e he
    unfold nodeAssert at h2
    rw [if_pos hm] at h2
    simpa using h2
  · intro h e he
    unfold nodeAssert
    by_cases hm : e.2.multiline = true
    · rw [if_pos hm]
      obtain ⟨h1, h2⟩ := h e he hm
      simp [h1, h2]
    · rw [if_neg hm]

/-- Claim C9: writing a render to a sink that fails after `k` accepted writes:
if the sink accepts every write the render completes and the sink holds the
full output; if it fails mid-render, the error aborts the remaining traversal
immediately, the sink holds exactly the writes made before the failure, and
that partial content is a prefix of the full render (nothing is buffered or
retried). -/
theorem claim_C9_sink_failure (t : Tree) (k : Nat) :
    ((fmtWrites t).length ≤ k → runWrites k (fmtWrites t) = (render t, true)) ∧
      (k < (fmtWrites t).length →
        runWrites k (fmtWrites t) = (joinOut ((fmtWrites t).take k), false) ∧
          ∃ tail, render t = joinOut ((fmtWrites t).take k) ++ tail) := by
  constructor
  · intro h
    rw [runWrites_complete (fmtWrites t) k h]
    rfl
  · intro h
    refine ⟨runWrites_fail (fmtWrites t) k h, joinOut ((fmtWrites t).drop k), ?_⟩
    unfold render
    rw [← joinOut_append, List.take_append_drop]

/-- Claim C10: a multiline descendant whose content is the empty string emits
no writes at all — its line vanishes from the output — while its children are
still enqueued and rendered (with the spaces vector extended by its `last`
flag). -/
theorem claim_C10_empty_multiline_no_line
    (t d : Tree) (p : List Nat) (fs : List Bool) (b : Bool)
    (hn : pathNodeF t.leaves p = some d) (hf : pathFlagsF t.leaves p = some (fs ++ [b]))
    (hm : d.multiline = true) (he : d.root = "") :
    nodeWrites t.glyphs b d fs = [] ∧
      ∃ pre post,
        fmtWrites t = pre ++ renderForest t.glyphs (fs ++ [b]) d.leaves ++ post := by
  have hz : nodeWrites t.glyphs b d fs = [] := by
    rw [nodeWrites_multi _ _ _ _ hm, he]
    rfl
  refine ⟨hz, ?_⟩
  obtain ⟨pre, post, hdec⟩ := fmt_decompose t d p fs b hn hf
  rw [renderTree1_def, hz, List.nil_append] at hdec
  exact ⟨pre, post, hdec⟩

/-- Claim C10 witness: in `treeEmptyMulti` the empty multiline child emits no
writes, and its child is still rendered. -/
theorem claim_C10_witness :
    nodeWrites treeEmptyMulti.glyphs true
        (Tree.mk "" [Tree.mk "kid" [] false GlyphPalette.new] true GlyphPalette.new) [] = [] ∧
      ∃ pre post,
        fmtWrites treeEmptyMulti = pre ++
          renderForest treeEmptyMulti.glyphs ([] ++ [true])
            (Tree.mk "" [Tree.mk "kid" [] false GlyphPalette.new] true
              GlyphPalette.new).leaves ++ post :=
  claim_C10_empty_multiline_no_line treeEmptyMulti
    (Tree.mk "" [Tree.mk "kid" [] false GlyphPalette.new] true GlyphPalette.new)
    [0] [] true rfl rfl rfl rfl

end Termtree
